import Mathlib

/-!
Verification of the size-attribution core of `vite-bundle-analyzer`.

The development shallowly embeds the sourcemap attribution module
(`convertSourcemapToContents`, `splitBytesByNewLine`,
`getStringFromSerializeMappings`, `getSourceMappings`) and the report
file-naming logic of the plugin's `closeBundle` hook.

Modelling conventions:
* A JavaScript string is modelled as its sequence of UTF-16 code units,
  `List Nat`; `String.prototype.substring` is `jsSubstring` /
  `jsSubstringFrom` below (arguments clamped to `[0, length]`, swapped
  when `start > end`).
* A `Uint8Array` is a `List Nat`.
* The external `TextDecoder` is an abstract parameter
  `decode : List Nat → List Nat` from a byte line to its code units.
* The external `SourceMapConsumer` is abstracted by its observable output:
  `eachMapping(..., ORIGINAL_ORDER)` delivers a `List Loc`, `sources` a
  `List String` and `sourceContentFor` an `Option String`-valued function
  (`none` models the `null` returned when content is missing).
* A JavaScript object used as a dictionary with non-numeric string keys
  enumerates its keys in insertion order; it is modelled as an ordered
  association list.  An object keyed by numbers (`maapingWithLine` in the
  source) enumerates the integer-like keys in ascending numeric order; it
  is modelled by iterating over the ascending sorted list of present keys
  (`linesOf`) and recovering each group by `filter`, which preserves the
  push order of the group members.
-/

namespace VBA

/-- One mapping item as delivered by `consumer.eachMapping`, i.e. the `Loc`
type of the source (`MappingItem & { lastGeneratedColumn: number | null }`).
Fields the attribution code never reads (`originalLine`, `originalColumn`,
`name`) are omitted.  `source = none` models a `null` source field. -/
structure Loc where
  source : Option String
  generatedLine : Nat
  generatedColumn : Nat
  lastGeneratedColumn : Option Nat
deriving DecidableEq, Repr

instance : Inhabited Loc := ⟨⟨none, 0, 0, none⟩⟩

/-- JavaScript `s.substring(a, b)` on a list of UTF-16 code units:
both indices are clamped to `[0, s.length]` and swapped if out of order. -/
def jsSubstring (s : List Nat) (a b : Nat) : List Nat :=
  let a' := min a s.length
  let b' := min b s.length
  (s.take (max a' b')).drop (min a' b')

/-- JavaScript `s.substring(a)` (one argument): from `a` to the end. -/
def jsSubstringFrom (s : List Nat) (a : Nat) : List Nat :=
  s.drop a

/-- Code units of an ASCII string literal, for concrete instances. -/
def cu (s : String) : List Nat :=
  s.data.map Char.toNat

/-- The scanning loop of `splitBytesByNewLine`: `cur` is the segment
accumulated since the last `0x0A` (the bytes from `start` to the loop
index `i`).  On a `0x0A` the segment is pushed (possibly empty) and the
accumulation restarts; at the end of the input the final segment is pushed
only when it is nonempty (`start < bytes.length`). -/
def splitBytesByNewLineAux : List Nat → List Nat → List (List Nat)
  | cur, [] => if cur = [] then [] else [cur]
  | cur, b :: rest =>
    if b = 10 then cur :: splitBytesByNewLineAux [] rest
    else splitBytesByNewLineAux (cur ++ [b]) rest

/-- The `splitBytesByNewLine` function of the source: split a byte sequence
at every `0x0A` byte. -/
def splitBytesByNewLine (bytes : List Nat) : List (List Nat) :=
  splitBytesByNewLineAux [] bytes

/-- Joining byte lines with a single `0x0A` between consecutive segments
(the inverse direction of `splitBytesByNewLine`, used to state C8). -/
def joinLF : List (List Nat) → List Nat
  | [] => []
  | [x] => x
  | x :: xs => x ++ 10 :: joinLF xs

/-- The body of the inner `for` loop of `getStringFromSerializeMappings`:
the substring contributed by the entry `cur`, where `cap` is the number of
the module's entries on the line and `next` is the following entry on the
line (if any). -/
def entryString (runes : List Nat) (cap : Nat) (cur : Loc) (next : Option Loc) :
    List Nat :=
  if cap = 1 ∨ cur.lastGeneratedColumn = none then
    jsSubstringFrom runes cur.generatedColumn
  else
    match cur.lastGeneratedColumn with
    | some lgc =>
      let e :=
        match next with
        | some n => if lgc + 1 = n.generatedColumn then n.generatedColumn else lgc
        | none => lgc
      jsSubstring runes cur.generatedColumn e
    | none => []

/-- The inner `for (let i = 0; i < cap; i++)` loop over one line's entries:
concatenate each entry's contribution, pairing entry `i` with entry `i + 1`
as its `nextMapping`. -/
def lineString (runes : List Nat) (ms : List Loc) : List Nat :=
  (List.range ms.length).foldl
    (fun s i => s ++ entryString runes ms.length (ms.getD i default) ms[i + 1]?) []

/-- The ascending list of generated-line numbers present in a mapping list:
the enumeration order of the integer-keyed object `maapingWithLine`
(ECMAScript enumerates integer-like keys in ascending numeric order). -/
def linesOf (mappings : List Loc) : List Nat :=
  List.insertionSort (· ≤ ·) (mappings.map (fun m => m.generatedLine)).dedup

/-- The guard `bytes[l]` of the source with `l = line - 1`: the indexing is
in range (an empty `Uint8Array` is still truthy, and `bytes[-1]` for
`line = 0` is `undefined`). -/
def validLine (bytes : List (List Nat)) (line : Nat) : Prop :=
  1 ≤ line ∧ line - 1 < bytes.length

instance (bytes : List (List Nat)) (line : Nat) : Decidable (validLine bytes line) :=
  instDecidableAnd

/-- The `getStringFromSerializeMappings` function of the source: group the
mapping entries by generated line, walk the lines in ascending order, skip
lines outside the artifact, and concatenate each present line's entry
substrings. -/
def getStringFromSerializeMappings (decode : List Nat → List Nat)
    (bytes : List (List Nat)) (mappings : List Loc) : List Nat :=
  (linesOf mappings).foldl
    (fun s line =>
      if validLine bytes line then
        s ++ lineString (decode (bytes.getD (line - 1) []))
          (mappings.filter (fun m => m.generatedLine == line))
      else s) []

/-- JavaScript truthiness of a nullable string (`if (mapping.source)`,
`if (s)`): `null` and the empty string are falsy. -/
def truthyS : Option String → Bool
  | none => false
  | some s => s != ""

/-- Push a mapping onto the group of key `id`, creating the group at the
end of the dictionary when the key is new (JavaScript object insertion
order). -/
def addMapping (acc : List (String × List Loc)) (id : String) (m : Loc) :
    List (String × List Loc) :=
  if acc.any (fun p => p.1 == id) then
    acc.map (fun p => if p.1 == id then (p.1, p.2 ++ [m]) else p)
  else acc ++ [(id, [m])]

/-- The `mappingWithId` accumulation of `getSourceMappings`: every mapping
with a truthy `source` is pushed onto the group keyed by
`formatter(mapping.source)`; sourceless mappings are dropped. -/
def collectMappings (formatter : String → String) (rawMappings : List Loc) :
    List (String × List Loc) :=
  rawMappings.foldl
    (fun acc m =>
      if truthyS m.source then addMapping acc (formatter (m.source.getD "")) m
      else acc) []

/-- The comparator `(a, b) => a.generatedColumn - b.generatedColumn`. -/
def colLE (a b : Loc) : Prop :=
  a.generatedColumn ≤ b.generatedColumn

instance : DecidableRel colLE := fun a b =>
  inferInstanceAs (Decidable (a.generatedColumn ≤ b.generatedColumn))

instance : IsTotal Loc colLE :=
  ⟨fun a b => Nat.le_total a.generatedColumn b.generatedColumn⟩

instance : IsTrans Loc colLE :=
  ⟨fun _ _ _ h1 h2 => Nat.le_trans h1 h2⟩

/-- The `mappings.sort((a, b) => a.generatedColumn - b.generatedColumn)`
call: a stable sort by generated column. -/
def sortByCol (ms : List Loc) : List Loc :=
  List.insertionSort colLE ms

/-- The `getSourceMappings` function of the source: split the artifact into
byte lines once, group the consumer's mappings by formatted module id, and
for each module (in key insertion order) sort its entries by generated
column and reconstruct its text. -/
def getSourceMappings (decode : List Nat → List Nat) (code : List Nat)
    (rawMappings : List Loc) (formatter : String → String) :
    List (String × List Nat) :=
  let bytes := splitBytesByNewLine code
  (collectMappings formatter rawMappings).foldl
    (fun hints g =>
      let sorted := sortByCol g.2
      if 0 < sorted.length then
        hints ++ [(g.1, getStringFromSerializeMappings decode bytes sorted)]
      else hints) []

/-- Lookup of a key in an ordered association list (the observation
`id in obj` / `obj[id]` on the modelled dictionaries). -/
def findGroup {β : Type} : List (String × β) → String → Option β
  | [], _ => none
  | p :: rest, id => if p.1 = id then some p.2 else findGroup rest id

/-- The Mapping Decoder's entry list for a module id: its group in
`mappingWithId`, empty when the id never occurs. -/
def decoderEntries (formatter : String → String) (rawMappings : List Loc)
    (id : String) : List Loc :=
  (findGroup (collectMappings formatter rawMappings) id).getD []

/-- The `ChunkMetadata` records returned by `convertSourcemapToContents`. -/
structure ChunkMetadata where
  id : String
  code : String
deriving DecidableEq, Repr

/-- The `convertSourcemapToContents` function of the source: one record per
source of the map whose embedded content is truthy, in source order. -/
def convertSourcemapToContents (sources : List String)
    (sourceContentFor : String → Option String) : List ChunkMetadata :=
  sources.foldl
    (fun acc source =>
      if truthyS (sourceContentFor source) then
        acc ++ [⟨source, (sourceContentFor source).getD ""⟩]
      else acc) []

/-- The three analyzer modes of the plugin options. -/
inductive AnalyzerMode
  | server
  | static
  | json
deriving DecidableEq

/-- The `preferSilent` flag: `analyzerMode === 'json' || analyzerMode === 'static'`. -/
def preferSilent : AnalyzerMode → Bool
  | .json => true
  | .static => true
  | .server => false

/-- The report path `path.join(defaultWd, output + '.' + ext)`. -/
def reportBasePath (defaultWd output ext : String) : String :=
  defaultWd ++ "/" ++ output ++ "." ++ ext

/-- The collision-avoiding report path
`path.join(defaultWd, output + '-' + callCount + '.' + ext)`. -/
def reportCounterPath (defaultWd output ext : String) (n : Nat) : String :=
  defaultWd ++ "/" ++ output ++ "-" ++ Nat.repr n ++ "." ++ ext

/-- The report-naming behaviour of the `closeBundle` hook: increment the
process-wide `callCount`, and in the silent modes compute the output path,
diverting to the counter path when the base path already exists.  Returns
the written path (`none` in pure server mode) and the value of `callCount`
when the hook finishes (the server branch's `callCount--`/`callCount++`
pair nets to zero). -/
def closeBundleReport (mode : AnalyzerMode) (fileName : Option String)
    (defaultWd : String) (existsFile : String → Bool) (callCount : Nat) :
    Option String × Nat :=
  let c := callCount + 1
  if preferSilent mode then
    let output := fileName.getD "stats"
    let ext := if mode = AnalyzerMode.json then "json" else "html"
    let base := reportBasePath defaultWd output ext
    let p := if existsFile base then reportCounterPath defaultWd output ext c else base
    (some p, c)
  else (none, c)

/-! Helper lemmas. -/

/-- Clamping behaviour of `jsSubstring` when the indices are in order. -/
theorem jsSubstring_of_le (s : List Nat) (a b : Nat) (hab : a ≤ b) :
    jsSubstring s a b = (s.take b).drop a := by
  have hdef : jsSubstring s a b
      = (s.take (max (min a s.length) (min b s.length))).drop
          (min (min a s.length) (min b s.length)) := rfl
  rw [hdef]
  have hmax : max (min a s.length) (min b s.length) = min b s.length := by omega
  have hmin : min (min a s.length) (min b s.length) = min a s.length := by omega
  rw [hmax, hmin]
  have h3 : s.take (min b s.length) = s.take b := by
    rcases Nat.le_total b s.length with h | h
    · rw [Nat.min_eq_left h]
    · rw [Nat.min_eq_right h, List.take_length, List.take_of_length_le h]
  rw [h3]
  rcases Nat.le_total a s.length with h | h
  · rw [Nat.min_eq_left h]
  · rw [Nat.min_eq_right h]
    rw [List.drop_eq_nil_of_le, List.drop_eq_nil_of_le]
    · rw [List.length_take]; omega
    · rw [List.length_take]; omega

/-- Accumulator form of `convertSourcemapToContents`. -/
theorem convertSourcemapToContents_aux (f : String → Option String)
    (sources : List String) (acc : List ChunkMetadata) :
    sources.foldl
      (fun acc source =>
        if truthyS (f source) then acc ++ [⟨source, (f source).getD ""⟩] else acc) acc
      = acc ++ (sources.filter (fun s => truthyS (f s))).map
          (fun s => ⟨s, (f s).getD ""⟩) := by
  induction sources generalizing acc with
  | nil => simp
  | cons s rest ih =>
    simp only [List.foldl_cons, List.filter_cons]
    by_cases h : truthyS (f s) = true
    · rw [if_pos h, if_pos (by simpa using h), List.map_cons, ih]
      simp
    · rw [if_neg h, if_neg (by simpa using h), ih]

/-- Dropping falsy-source mappings does not change the accumulated groups. -/
theorem collectMappings_foldl_filter (formatter : String → String)
    (raw : List Loc) (acc : List (String × List Loc)) :
    (raw.filter (fun m => truthyS m.source)).foldl
      (fun acc m =>
        if truthyS m.source then addMapping acc (formatter (m.source.getD "")) m
        else acc) acc
      = raw.foldl
          (fun acc m =>
            if truthyS m.source then addMapping acc (formatter (m.source.getD "")) m
            else acc) acc := by
  induction raw generalizing acc with
  | nil => rfl
  | cons m rest ih =>
    simp only [List.filter_cons, List.foldl_cons]
    by_cases h : truthyS m.source = true
    · rw [if_pos (by simpa using h), List.foldl_cons, if_pos h]
      exact ih _
    · rw [if_neg (by simpa using h), if_neg h]
      exact ih acc

/-- The end-of-line branch of the inner loop. -/
theorem entryString_eol (runes : List Nat) (cap : Nat) (cur : Loc)
    (next : Option Loc) (h : cap = 1 ∨ cur.lastGeneratedColumn = none) :
    entryString runes cap cur next = runes.drop cur.generatedColumn := by
  unfold entryString
  rw [if_pos h]
  rfl

/-- The gap-closing branch of the inner loop: the next entry starts exactly
one column past `lastGeneratedColumn`. -/
theorem entryString_adjacent (runes : List Nat) (cap : Nat) (cur n : Loc)
    (L : Nat) (h1 : cap ≠ 1) (h2 : cur.lastGeneratedColumn = some L)
    (h4 : n.generatedColumn = L + 1) (h5 : cur.generatedColumn ≤ L + 1) :
    entryString runes cap cur (some n)
      = (runes.take (L + 1)).drop cur.generatedColumn := by
  unfold entryString
  rw [if_neg (by simp [h1, h2])]
  rw [h2]
  show jsSubstring runes cur.generatedColumn
      (if L + 1 = n.generatedColumn then n.generatedColumn else L) = _
  rw [h4, if_pos rfl]
  exact jsSubstring_of_le _ _ _ h5

/-- The default bounded branch of the inner loop: the range ends at
`lastGeneratedColumn` exclusive. -/
theorem entryString_bounded (runes : List Nat) (cap : Nat) (cur : Loc)
    (next : Option Loc) (L : Nat) (h1 : cap ≠ 1)
    (h2 : cur.lastGeneratedColumn = some L)
    (h3 : ∀ n, next = some n → n.generatedColumn ≠ L + 1)
    (h4 : cur.generatedColumn ≤ L) :
    entryString runes cap cur next
      = (runes.take L).drop cur.generatedColumn := by
  unfold entryString
  rw [if_neg (by simp [h1, h2])]
  rw [h2]
  cases next with
  | none =>
    show jsSubstring runes cur.generatedColumn L = _
    exact jsSubstring_of_le _ _ _ h4
  | some n =>
    show jsSubstring runes cur.generatedColumn
        (if L + 1 = n.generatedColumn then n.generatedColumn else L) = _
    rw [if_neg (fun h => h3 n rfl h.symm)]
    exact jsSubstring_of_le _ _ _ h4

/-! Claim theorems. -/

/-- C1 counterexample: on the one-line text `"abcdefghij"` with entries
A(col 0, lastCol 4) and B(col 5, lastCol 9), entry B does not reconstruct
`"fghij"` and the two ranges do not partition the line: the reconstruction
of the whole line is not `"abcdefghij"`. -/
theorem C1_claim_counterexample :
    entryString (cu "abcdefghij") 2 ⟨some "m", 1, 5, some 9⟩ none ≠ cu "fghij"
    ∧ getStringFromSerializeMappings (fun bs => bs) [cu "abcdefghij"]
        [⟨some "m", 1, 0, some 4⟩, ⟨some "m", 1, 5, some 9⟩] ≠ cu "abcdefghij" := by
  decide

/-- C1 (amended): for the one-line generated text `"abcdefghij"` with
entries A(col 0, lastCol 4) and B(col 5, lastCol 9), entry A reconstructs
`"abcde"` and entry B reconstructs `"fghi"`: the character at column 5 is
neither dropped nor duplicated, but the character at column 9 is dropped,
so the two ranges are disjoint yet do not cover the line. -/
theorem C1_amended_reconstruction :
    entryString (cu "abcdefghij") 2 ⟨some "m", 1, 0, some 4⟩
        (some ⟨some "m", 1, 5, some 9⟩) = cu "abcde"
    ∧ entryString (cu "abcdefghij") 2 ⟨some "m", 1, 5, some 9⟩ none = cu "fghi"
    ∧ getStringFromSerializeMappings (fun bs => bs) [cu "abcdefghij"]
        [⟨some "m", 1, 0, some 4⟩, ⟨some "m", 1, 5, some 9⟩] = cu "abcdefghi" := by
  decide

/-- C2 counterexample: a two-entry line where the second entry has
`generatedColumn 1` and `lastGeneratedColumn 4` and no next entry
reconstructs `"bcd"`, not `"bcde"`: the character at index
`lastGeneratedColumn` is not included, refuting the claimed inclusive
bound. -/
theorem C2_claim_counterexample :
    entryString (cu "abcdef") 2 ⟨some "x", 1, 1, some 4⟩ none = cu "bcd"
    ∧ cu "bcd" ≠ cu "bcde" := by
  decide

/-- C2 (amended): the range reconstructed for entry `i` of a line starts at
its `generatedColumn` and ends as follows: with no `lastGeneratedColumn` or
as the line's only entry it runs to end of line; if the next entry starts
exactly at `lastGeneratedColumn + 1` it runs up to (exclusive) that next
column; otherwise it runs up to `lastGeneratedColumn` EXCLUSIVE (the
character at index `lastGeneratedColumn` is not included). -/
theorem C2_amended_entry_ranges (runes : List Nat) (ms : List Loc) (i : Nat)
    (_hi : i < ms.length) :
    ((ms.length = 1 ∨ (ms.getD i default).lastGeneratedColumn = none) →
      entryString runes ms.length (ms.getD i default) ms[i + 1]?
        = runes.drop (ms.getD i default).generatedColumn)
    ∧ (∀ L n, ms.length ≠ 1 → (ms.getD i default).lastGeneratedColumn = some L →
        ms[i + 1]? = some n → n.generatedColumn = L + 1 →
        (ms.getD i default).generatedColumn ≤ L + 1 →
        entryString runes ms.length (ms.getD i default) ms[i + 1]?
          = (runes.take (L + 1)).drop (ms.getD i default).generatedColumn)
    ∧ (∀ L, ms.length ≠ 1 → (ms.getD i default).lastGeneratedColumn = some L →
        (∀ n, ms[i + 1]? = some n → n.generatedColumn ≠ L + 1) →
        (ms.getD i default).generatedColumn ≤ L →
        entryString runes ms.length (ms.getD i default) ms[i + 1]?
          = (runes.take L).drop (ms.getD i default).generatedColumn) := by
  refine ⟨?_, ?_, ?_⟩
  · intro h
    exact entryString_eol runes ms.length (ms.getD i default) ms[i + 1]? h
  · intro L n h1 h2 h3 h4 h5
    rw [h3]
    exact entryString_adjacent runes ms.length (ms.getD i default) n L h1 h2 h4 h5
  · intro L h1 h2 h3 h4
    exact entryString_bounded runes ms.length (ms.getD i default) ms[i + 1]? L h1 h2 h3 h4

/-- C2 witness: the amended theorem applied to the boundary-adjacency
example (entry A of the `"abcdefghij"` line). -/
theorem C2_amended_entry_ranges_witness :
    (0 : Nat) < 2
    ∧ entryString (cu "abcdefghij") 2 ⟨some "m", 1, 0, some 4⟩
        (some ⟨some "m", 1, 5, some 9⟩) = cu "abcde" := by
  refine ⟨by decide, ?_⟩
  have h := (C2_amended_entry_ranges (cu "abcdefghij")
      [⟨some "m", 1, 0, some 4⟩, ⟨some "m", 1, 5, some 9⟩] 0 (by decide)).2.1 4
      ⟨some "m", 1, 5, some 9⟩ (by decide) (by decide) (by decide) (by decide)
      (by decide)
  exact h

/-- C5: mappings whose `source` is null (or otherwise falsy) are dropped by
the Mapping Decoder: removing them from the consumer's output changes
neither the decoder's grouped output nor any module's reconstructed text. -/
theorem C5_sourceless_entries_dropped (decode : List Nat → List Nat)
    (code : List Nat) (raw : List Loc) (formatter : String → String) :
    collectMappings formatter (raw.filter (fun m => truthyS m.source))
        = collectMappings formatter raw
    ∧ getSourceMappings decode code (raw.filter (fun m => truthyS m.source)) formatter
        = getSourceMappings decode code raw formatter := by
  have hc : collectMappings formatter (raw.filter (fun m => truthyS m.source))
      = collectMappings formatter raw := by
    unfold collectMappings
    exact collectMappings_foldl_filter formatter raw []
  refine ⟨hc, ?_⟩
  unfold getSourceMappings
  rw [hc]

/-- C7: the attribution pipeline is deterministic: byte-identical inputs
produce identical hints records, including the per-module key enumeration
order (the output is an ordered association list, so equality of the key
projections is equality of enumeration order). -/
theorem C7_pipeline_deterministic (decode : List Nat → List Nat)
    (code code' : List Nat) (raw raw' : List Loc)
    (formatter formatter' : String → String)
    (hcode : code = code') (hraw : raw = raw') (hfmt : formatter = formatter') :
    getSourceMappings decode code raw formatter
        = getSourceMappings decode code' raw' formatter'
    ∧ (getSourceMappings decode code raw formatter).map Prod.fst
        = (getSourceMappings decode code' raw' formatter').map Prod.fst := by
  subst hcode; subst hraw; subst hfmt
  exact ⟨rfl, rfl⟩

/-- C7 witness: determinism at a concrete input. -/
theorem C7_pipeline_deterministic_witness :
    cu "ab" = cu "ab"
    ∧ getSourceMappings (fun bs => bs) (cu "ab") [⟨some "a", 1, 0, none⟩] (fun s => s)
        = getSourceMappings (fun bs => bs) (cu "ab") [⟨some "a", 1, 0, none⟩] (fun s => s)
    ∧ (getSourceMappings (fun bs => bs) (cu "ab") [⟨some "a", 1, 0, none⟩]
        (fun s => s)).map Prod.fst
        = (getSourceMappings (fun bs => bs) (cu "ab") [⟨some "a", 1, 0, none⟩]
            (fun s => s)).map Prod.fst := by
  refine ⟨rfl, ?_⟩
  exact C7_pipeline_deterministic (fun bs => bs) (cu "ab") (cu "ab")
    [⟨some "a", 1, 0, none⟩] [⟨some "a", 1, 0, none⟩] (fun s => s) (fun s => s)
    rfl rfl rfl

/-- C9: in the silent (report-producing) modes the `closeBundle` hook
advances the per-process counter by exactly one on every run, writes
`<outputName>.<ext>` when that path is free, and otherwise writes
`<outputName>-<n>.<ext>` with `n` the freshly incremented counter, a path
always distinct from the base path, so the existing base-named report is
never overwritten. -/
theorem C9_report_naming (mode : AnalyzerMode) (fileName : Option String)
    (wd : String) (existsFile : String → Bool) (c : Nat)
    (hmode : preferSilent mode = true) :
    c < (closeBundleReport mode fileName wd existsFile c).2
    ∧ (closeBundleReport mode fileName wd existsFile c).2 = c + 1
    ∧ (existsFile (reportBasePath wd (fileName.getD "stats")
          (if mode = AnalyzerMode.json then "json" else "html")) = false →
        (closeBundleReport mode fileName wd existsFile c).1
          = some (reportBasePath wd (fileName.getD "stats")
              (if mode = AnalyzerMode.json then "json" else "html")))
    ∧ (existsFile (reportBasePath wd (fileName.getD "stats")
          (if mode = AnalyzerMode.json then "json" else "html")) = true →
        (closeBundleReport mode fileName wd existsFile c).1
          = some (reportCounterPath wd (fileName.getD "stats")
              (if mode = AnalyzerMode.json then "json" else "html") (c + 1)))
    ∧ (∀ output ext n, reportCounterPath wd output ext n ≠ reportBasePath wd output ext) := by
  have heval : closeBundleReport mode fileName wd existsFile c
      = (some (if existsFile (reportBasePath wd (fileName.getD "stats")
                  (if mode = AnalyzerMode.json then "json" else "html")) = true
              then reportCounterPath wd (fileName.getD "stats")
                  (if mode = AnalyzerMode.json then "json" else "html") (c + 1)
              else reportBasePath wd (fileName.getD "stats")
                  (if mode = AnalyzerMode.json then "json" else "html")),
          c + 1) := by
    unfold closeBundleReport
    rw [if_pos hmode]
  refine ⟨?_, ?_, ?_, ?_, ?_⟩
  · rw [heval]
    omega
  · rw [heval]
  · intro hex
    rw [heval]
    simp [hex]
  · intro hex
    rw [heval]
    simp [hex]
  · intro output ext n h
    have hlen := congrArg String.length h
    have hdash : String.length "-" = 1 := rfl
    simp only [reportCounterPath, reportBasePath, String.length_append, hdash] at hlen
    omega

/-- C9 witness: with an existing `out/stats.json`, the first json-mode run
writes `out/stats-1.json` and leaves the counter at 1. -/
theorem C9_report_naming_witness :
    preferSilent AnalyzerMode.json = true
    ∧ (closeBundleReport AnalyzerMode.json none "out"
        (fun s => s == "out/stats.json") 0).1 = some "out/stats-1.json"
    ∧ (closeBundleReport AnalyzerMode.json none "out"
        (fun s => s == "out/stats.json") 0).2 = 1 := by
  refine ⟨rfl, ?_, ?_⟩
  · exact (C9_report_naming AnalyzerMode.json none "out"
      (fun s => s == "out/stats.json") 0 rfl).2.2.2.1 (by decide)
  · exact (C9_report_naming AnalyzerMode.json none "out"
      (fun s => s == "out/stats.json") 0 rfl).2.1

/-- Lookup over a concatenation tries the left list first. -/
theorem findGroup_append {β : Type} (l1 l2 : List (String × β)) (id : String) :
    findGroup (l1 ++ l2) id
      = match findGroup l1 id with
        | some v => some v
        | none => findGroup l2 id := by
  induction l1 with
  | nil => rfl
  | cons p rest ih =>
    by_cases h : p.1 = id
    · simp [findGroup, h]
    · simp [findGroup, h, ih]

/-- A lookup misses exactly when no key matches. -/
theorem findGroup_eq_none_iff {β : Type} (l : List (String × β)) (id : String) :
    findGroup l id = none ↔ ∀ p ∈ l, p.1 ≠ id := by
  induction l with
  | nil => simp [findGroup]
  | cons p rest ih =>
    by_cases h : p.1 = id
    · simp [findGroup, h]
    · simp [findGroup, h, ih]

/-- A successful lookup exhibits a member with the looked-up key. -/
theorem mem_of_findGroup_eq_some {β : Type} {l : List (String × β)} {id : String}
    {v : β} (h : findGroup l id = some v) : (id, v) ∈ l := by
  induction l with
  | nil => simp [findGroup] at h
  | cons p rest ih =>
    rcases p with ⟨a, b⟩
    by_cases ha : a = id
    · subst ha
      simp [findGroup] at h
      subst h
      exact List.mem_cons_self _ _
    · simp [findGroup, ha] at h
      exact List.mem_cons_of_mem _ (ih h)

/-- `addMapping` never creates an empty group. -/
theorem addMapping_groups_ne_nil (acc : List (String × List Loc)) (id : String)
    (m : Loc) (h : ∀ p ∈ acc, p.2 ≠ []) :
    ∀ p ∈ addMapping acc id m, p.2 ≠ [] := by
  intro p hp
  unfold addMapping at hp
  by_cases hk : acc.any (fun p => p.1 == id) = true
  · rw [if_pos hk] at hp
    obtain ⟨q, hq, rfl⟩ := List.mem_map.mp hp
    by_cases hq1 : q.1 == id
    · simp [hq1]
    · simp only [hq1, Bool.false_eq_true, if_false]
      exact h q hq
  · rw [if_neg hk] at hp
    rcases List.mem_append.mp hp with h1 | h1
    · exact h p h1
    · simp only [List.mem_singleton] at h1
      subst h1
      simp

/-- Every group accumulated by `collectMappings` is nonempty. -/
theorem collectMappings_groups_ne_nil (formatter : String → String)
    (raw : List Loc) : ∀ p ∈ collectMappings formatter raw, p.2 ≠ [] := by
  unfold collectMappings
  suffices haux : ∀ (raw : List Loc) (acc : List (String × List Loc)),
      (∀ p ∈ acc, p.2 ≠ []) →
      ∀ p ∈ raw.foldl
        (fun acc m =>
          if truthyS m.source then addMapping acc (formatter (m.source.getD "")) m
          else acc) acc, p.2 ≠ [] by
    exact haux raw [] (by simp)
  intro raw
  induction raw with
  | nil => intro acc hacc; exact hacc
  | cons m rest ih =>
    intro acc hacc
    rw [List.foldl_cons]
    refine ih _ ?_
    by_cases h : truthyS m.source = true
    · rw [if_pos h]
      exact addMapping_groups_ne_nil _ _ _ hacc
    · rw [if_neg h]
      exact hacc

/-- The hints fold of `getSourceMappings` introduces no key outside the
grouped keys. -/
theorem hints_foldl_findGroup_none (decode : List Nat → List Nat)
    (bytes : List (List Nat)) (gs : List (String × List Loc)) (id : String)
    (acc : List (String × List Nat)) (hacc : findGroup acc id = none)
    (hgs : ∀ g ∈ gs, g.1 ≠ id) :
    findGroup
      (gs.foldl
        (fun hints g =>
          let sorted := sortByCol g.2
          if 0 < sorted.length then
            hints ++ [(g.1, getStringFromSerializeMappings decode bytes sorted)]
          else hints) acc) id = none := by
  induction gs generalizing acc with
  | nil => exact hacc
  | cons g rest ih =>
    rw [List.foldl_cons]
    refine ih _ ?_ (fun g' hg' => hgs g' (List.mem_cons_of_mem _ hg'))
    show findGroup
        (if 0 < (sortByCol g.2).length then
          acc ++ [(g.1, getStringFromSerializeMappings decode bytes (sortByCol g.2))]
        else acc) id = none
    by_cases h : 0 < (sortByCol g.2).length
    · rw [if_pos h, findGroup_append, hacc]
      simp [findGroup, hgs g (List.mem_cons_self _ _)]
    · rw [if_neg h]
      exact hacc

/-- C3: a module with zero mapped ranges receives no attributed text at
all: when the Mapping Decoder's entry list for a module id is empty, the
hints record returned by `getSourceMappings` contains no key for it. -/
theorem C3_zero_mapped_module_unattributed (decode : List Nat → List Nat)
    (code : List Nat) (raw : List Loc) (formatter : String → String)
    (id : String) (h : decoderEntries formatter raw id = []) :
    findGroup (getSourceMappings decode code raw formatter) id = none := by
  cases hg : findGroup (collectMappings formatter raw) id with
  | some g =>
    exfalso
    have hmem := mem_of_findGroup_eq_some hg
    have hne := collectMappings_groups_ne_nil formatter raw _ hmem
    unfold decoderEntries at h
    rw [hg] at h
    exact hne (by simpa using h)
  | none =>
    have hkeys : ∀ g ∈ collectMappings formatter raw, g.1 ≠ id :=
      (findGroup_eq_none_iff _ _).mp hg
    exact hints_foldl_findGroup_none decode (splitBytesByNewLine code) _ id [] rfl hkeys

/-- C3 witness: a module id that never occurs in the consumer output has an
empty decoder entry list and no hints key. -/
theorem C3_zero_mapped_module_unattributed_witness :
    decoderEntries (fun s => s) [⟨some "a", 1, 0, none⟩] "b" = []
    ∧ findGroup (getSourceMappings (fun bs => bs) (cu "ab")
        [⟨some "a", 1, 0, none⟩] (fun s => s)) "b" = none := by
  refine ⟨by decide, ?_⟩
  exact C3_zero_mapped_module_unattributed (fun bs => bs) (cu "ab")
    [⟨some "a", 1, 0, none⟩] (fun s => s) "b" (by decide)

/-- The split loop never returns an empty list unless both the pending
segment and the remaining input are empty. -/
theorem splitBytesByNewLineAux_ne_nil (bs cur : List Nat)
    (h : cur ≠ [] ∨ bs ≠ []) : splitBytesByNewLineAux cur bs ≠ [] := by
  induction bs generalizing cur with
  | nil =>
    rcases h with h | h
    · simp [splitBytesByNewLineAux, h]
    · exact absurd rfl h
  | cons b rest ih =>
    unfold splitBytesByNewLineAux
    by_cases hb : b = 10
    · rw [if_pos hb]
      simp
    · rw [if_neg hb]
      exact ih _ (Or.inl (by simp))

/-- `joinLF` over a cons with a nonempty tail inserts one separator. -/
theorem joinLF_cons_of_ne_nil (x : List Nat) (xs : List (List Nat))
    (h : xs ≠ []) : joinLF (x :: xs) = x ++ 10 :: joinLF xs := by
  cases xs with
  | nil => exact absurd rfl h
  | cons y ys => rfl

/-- No segment produced by the split loop contains a line feed, provided
the pending segment contains none. -/
theorem splitBytesByNewLineAux_no_newline (bs cur : List Nat)
    (hcur : ¬ 10 ∈ cur) : ∀ seg ∈ splitBytesByNewLineAux cur bs, ¬ 10 ∈ seg := by
  induction bs generalizing cur with
  | nil =>
    intro seg hseg
    unfold splitBytesByNewLineAux at hseg
    by_cases h : cur = []
    · rw [if_pos h] at hseg
      simp at hseg
    · rw [if_neg h] at hseg
      simp only [List.mem_singleton] at hseg
      subst hseg
      exact hcur
  | cons b rest ih =>
    intro seg hseg
    unfold splitBytesByNewLineAux at hseg
    by_cases hb : b = 10
    · rw [if_pos hb] at hseg
      rcases List.mem_cons.mp hseg with h1 | h1
      · subst h1
        exact hcur
      · exact ih [] (by simp) seg h1
    · rw [if_neg hb] at hseg
      refine ih (cur ++ [b]) ?_ seg hseg
      intro hm
      rcases List.mem_append.mp hm with h1 | h1
      · exact hcur h1
      · simp only [List.mem_singleton] at h1
        exact hb h1.symm

/-- Round trip of the split loop: joining the produced segments with a
single line feed restores the input, up to one trailing line feed. -/
theorem splitBytesByNewLineAux_join (bs cur : List Nat) (hcur : ¬ 10 ∈ cur) :
    joinLF (splitBytesByNewLineAux cur bs)
      = if (cur ++ bs).getLast? = some 10 then (cur ++ bs).dropLast
        else cur ++ bs := by
  induction bs generalizing cur with
  | nil =>
    unfold splitBytesByNewLineAux
    by_cases h : cur = []
    · rw [if_pos h]
      subst h
      simp [joinLF]
    · rw [if_neg h]
      have hlast : ¬ (cur ++ []).getLast? = some 10 := by
        simp only [List.append_nil]
        intro hk
        exact hcur (List.mem_of_mem_getLast? hk)
      rw [if_neg hlast]
      simp [joinLF]
  | cons b rest ih =>
    unfold splitBytesByNewLineAux
    by_cases hb : b = 10
    · rw [if_pos hb]
      subst hb
      by_cases hr : rest = []
      · subst hr
        show joinLF [cur] = _
        have h1 : (cur ++ 10 :: ([] : List Nat)) = cur ++ [10] := rfl
        rw [h1, List.getLast?_concat, if_pos rfl, List.dropLast_concat]
        rfl
      · obtain ⟨r, rs, rfl⟩ : ∃ r rs, rest = r :: rs := by
          cases rest with
          | nil => exact absurd rfl hr
          | cons r rs => exact ⟨r, rs, rfl⟩
        have hne : splitBytesByNewLineAux [] (r :: rs) ≠ [] :=
          splitBytesByNewLineAux_ne_nil (r :: rs) [] (Or.inr (by simp))
        rw [joinLF_cons_of_ne_nil _ _ hne, ih [] (by simp)]
        simp only [List.nil_append]
        have hglast : (cur ++ 10 :: r :: rs).getLast? = (r :: rs).getLast? := by
          rw [List.getLast?_append, List.getLast?_cons_cons]
          cases hl : (r :: rs).getLast? with
          | none =>
            exfalso
            have := List.getLast?_isSome (l := r :: rs)
            rw [hl] at this
            simp at this
          | some y => rfl
        have hdrop : (cur ++ 10 :: r :: rs).dropLast
            = cur ++ 10 :: (r :: rs).dropLast := by
          rw [List.dropLast_append_of_ne_nil _ (by simp), List.dropLast_cons₂]
        rw [hglast, hdrop]
        by_cases hlast : (r :: rs).getLast? = some (10 : Nat)
        · rw [if_pos hlast, if_pos hlast]
        · rw [if_neg hlast, if_neg hlast]
    · rw [if_neg hb]
      have hcur' : ¬ 10 ∈ cur ++ [b] := by
        intro hm
        rcases List.mem_append.mp hm with h1 | h1
        · exact hcur h1
        · simp only [List.mem_singleton] at h1
          exact hb h1.symm
      rw [ih (cur ++ [b]) hcur']
      simp only [List.append_assoc, List.singleton_append]

/-- C8: `splitBytesByNewLine` splits exactly at `0x0A`: no returned segment
contains `0x0A`, and joining the segments with single `0x0A` separators
reconstructs the input, except that one trailing `0x0A` of the input is not
reproduced.  (`getSourceMappings` computes the split once per chunk, before
the per-module loop, and passes the same result to every module's
reconstruction.) -/
theorem C8_split_semantics (bs : List Nat) :
    (∀ seg ∈ splitBytesByNewLine bs, ¬ 10 ∈ seg)
    ∧ joinLF (splitBytesByNewLine bs)
        = if bs.getLast? = some 10 then bs.dropLast else bs := by
  constructor
  · exact splitBytesByNewLineAux_no_newline bs [] (by simp)
  · have h := splitBytesByNewLineAux_join bs [] (by simp)
    simpa using h

/-- C8 witness: the split/join law at a concrete two-line input. -/
theorem C8_split_semantics_witness :
    ¬ (10 : Nat) ∈ ([97] : List Nat)
    ∧ joinLF (splitBytesByNewLine [97, 10, 98]) = [97, 10, 98] := by
  constructor
  · exact (C8_split_semantics [97, 10, 98]).1 [97] (by decide)
  · have h := (C8_split_semantics [97, 10, 98]).2
    rw [if_neg (by decide)] at h
    exact h

/-- Two sorted duplicate-free lists of naturals with the same members are
equal. -/
theorem sorted_nodup_eq_of_mem_iff (l₁ l₂ : List Nat)
    (hs₁ : l₁.Sorted (· ≤ ·)) (hs₂ : l₂.Sorted (· ≤ ·))
    (hn₁ : l₁.Nodup) (hn₂ : l₂.Nodup)
    (hmem : ∀ x, x ∈ l₁ ↔ x ∈ l₂) : l₁ = l₂ := by
  have hperm : l₁.Perm l₂ := (List.perm_ext_iff_of_nodup hn₁ hn₂).mpr hmem
  exact List.eq_of_perm_of_sorted hperm hs₁ hs₂

/-- The line list is ascending. -/
theorem linesOf_sorted (ms : List Loc) : (linesOf ms).Sorted (· ≤ ·) :=
  List.sorted_insertionSort _ _

/-- The line list has no duplicates. -/
theorem linesOf_nodup (ms : List Loc) : (linesOf ms).Nodup :=
  (List.perm_insertionSort _ _).symm.nodup (List.nodup_dedup _)

/-- Membership in the line list. -/
theorem mem_linesOf {ms : List Loc} {x : Nat} :
    x ∈ linesOf ms ↔ ∃ m, m ∈ ms ∧ m.generatedLine = x := by
  unfold linesOf
  rw [(List.perm_insertionSort _ _).mem_iff, List.mem_dedup, List.mem_map]

/-- The line list only depends on the multiset of entries. -/
theorem linesOf_perm (ms ms' : List Loc) (h : ms.Perm ms') :
    linesOf ms = linesOf ms' := by
  refine sorted_nodup_eq_of_mem_iff _ _ (linesOf_sorted ms) (linesOf_sorted ms')
    (linesOf_nodup ms) (linesOf_nodup ms') ?_
  intro x
  rw [mem_linesOf, mem_linesOf]
  constructor
  · rintro ⟨m, hm, rfl⟩
    exact ⟨m, h.mem_iff.mp hm, rfl⟩
  · rintro ⟨m, hm, rfl⟩
    exact ⟨m, h.mem_iff.mpr hm, rfl⟩

/-- Filtering the entries to the in-range lines filters the line list. -/
theorem linesOf_filter_valid (bytes : List (List Nat)) (ms : List Loc) :
    linesOf (ms.filter (fun m => decide (validLine bytes m.generatedLine)))
      = (linesOf ms).filter (fun line => decide (validLine bytes line)) := by
  refine sorted_nodup_eq_of_mem_iff _ _ (linesOf_sorted _)
    (List.Pairwise.filter _ (linesOf_sorted ms)) (linesOf_nodup _)
    ((linesOf_nodup ms).filter _) ?_
  intro x
  rw [mem_linesOf, List.mem_filter, mem_linesOf]
  constructor
  · rintro ⟨m, hm, rfl⟩
    rw [List.mem_filter] at hm
    exact ⟨⟨m, hm.1, rfl⟩, hm.2⟩
  · rintro ⟨⟨m, hm, rfl⟩, hv⟩
    exact ⟨m, List.mem_filter.mpr ⟨hm, hv⟩, rfl⟩

/-- Folding over the sublist of elements satisfying `p` agrees with folding
over the whole list when the step function fixes the accumulator outside
`p`. -/
theorem foldl_filter_of_skip {α β : Type} (p : β → Bool) (f : α → β → α)
    (l : List β) (a : α) (h : ∀ acc b, b ∈ l → p b = false → f acc b = acc) :
    (l.filter p).foldl f a = l.foldl f a := by
  induction l generalizing a with
  | nil => rfl
  | cons b rest ih =>
    rw [List.filter_cons, List.foldl_cons]
    by_cases hb : p b = true
    · rw [if_pos hb, List.foldl_cons]
      exact ih _ (fun acc b' hb' => h acc b' (List.mem_cons_of_mem _ hb'))
    · have hb' : p b = false := by simpa using hb
      rw [if_neg (by simp [hb']), h a b (List.mem_cons_self _ _) hb']
      exact ih _ (fun acc b' hbm => h acc b' (List.mem_cons_of_mem _ hbm))

/-- On an in-range line, restricting the entries to in-range lines does not
change the line's group. -/
theorem filter_line_of_filter_valid (bytes : List (List Nat)) (ms : List Loc)
    (line : Nat) (hline : validLine bytes line) :
    (ms.filter (fun m => decide (validLine bytes m.generatedLine))).filter
        (fun m => m.generatedLine == line)
      = ms.filter (fun m => m.generatedLine == line) := by
  rw [List.filter_filter]
  apply List.filter_congr
  intro m hm
  by_cases h : m.generatedLine == line
  · have heq : m.generatedLine = line := by simpa using h
    rw [h]
    simp [heq, decide_eq_true hline]
  · have h' : (m.generatedLine == line) = false := by simpa using h
    rw [h']
    simp

/-- C4: mapping entries whose generated line lies outside the artifact's
actual line count are skipped silently: dropping them leaves every module's
reconstructed text unchanged (so they contribute zero characters, no error
is raised, and entries on valid lines are still reconstructed). -/
theorem C4_missing_generated_lines_skipped (decode : List Nat → List Nat)
    (bytes : List (List Nat)) (ms : List Loc) :
    getStringFromSerializeMappings decode bytes ms
      = getStringFromSerializeMappings decode bytes
          (ms.filter (fun m => decide (validLine bytes m.generatedLine))) := by
  unfold getStringFromSerializeMappings
  rw [linesOf_filter_valid bytes ms]
  have h1 : ((linesOf ms).filter (fun line => decide (validLine bytes line))).foldl
      (fun s line =>
        if validLine bytes line then
          s ++ lineString (decode (bytes.getD (line - 1) []))
            ((ms.filter (fun m => decide (validLine bytes m.generatedLine))).filter
              (fun m => m.generatedLine == line))
        else s) []
      = ((linesOf ms).filter (fun line => decide (validLine bytes line))).foldl
        (fun s line =>
          if validLine bytes line then
            s ++ lineString (decode (bytes.getD (line - 1) []))
              (ms.filter (fun m => m.generatedLine == line))
          else s) [] := by
    apply List.foldl_ext
    intro s line hline
    rw [List.mem_filter] at hline
    have hv : validLine bytes line := of_decide_eq_true hline.2
    rw [if_pos hv, if_pos hv, filter_line_of_filter_valid bytes ms line hv]
  rw [h1]
  refine (foldl_filter_of_skip _ _ _ _ ?_).symm
  intro acc line hmem hfalse
  rw [if_neg (of_decide_eq_false hfalse)]

/-- Two lists sorted by generated column, with pairwise distinct columns
and the same multiset of entries, are equal. -/
theorem sorted_cols_eq_of_perm (ms₁ ms₂ : List Loc) (hperm : ms₁.Perm ms₂)
    (hdist : ms₁.Pairwise (fun a b => a.generatedColumn ≠ b.generatedColumn))
    (hs₁ : ms₁.Pairwise colLE) (hs₂ : ms₂.Pairwise colLE) : ms₁ = ms₂ := by
  haveI : IsAntisymm Loc (fun a b : Loc => a.generatedColumn < b.generatedColumn) :=
    ⟨fun a b h1 h2 => absurd h2 (Nat.lt_asymm h1)⟩
  have hdist₂ : ms₂.Pairwise (fun a b => a.generatedColumn ≠ b.generatedColumn) :=
    (List.Perm.pairwise_iff (fun h => Ne.symm h) hperm).mp hdist
  have hlt₁ : ms₁.Pairwise (fun a b : Loc => a.generatedColumn < b.generatedColumn) :=
    (hs₁.and hdist).imp (fun h => Nat.lt_of_le_of_ne h.1 h.2)
  have hlt₂ : ms₂.Pairwise (fun a b : Loc => a.generatedColumn < b.generatedColumn) :=
    (hs₂.and hdist₂).imp (fun h => Nat.lt_of_le_of_ne h.1 h.2)
  exact List.eq_of_perm_of_sorted hperm hlt₁ hlt₂

/-- The column sort is sorted by column. -/
theorem sortByCol_sorted (ms : List Loc) : (sortByCol ms).Pairwise colLE :=
  List.sorted_insertionSort colLE ms

/-- The column sort permutes its input. -/
theorem sortByCol_perm (ms : List Loc) : (sortByCol ms).Perm ms :=
  List.perm_insertionSort colLE ms

/-- Sorting the whole entry list by column and then grouping one line is
the same as grouping first and sorting the group, when the line's columns
are distinct. -/
theorem sortByCol_filter_line (ms : List Loc) (line : Nat)
    (hdist : (ms.filter (fun m => m.generatedLine == line)).Pairwise
      (fun a b => a.generatedColumn ≠ b.generatedColumn)) :
    (sortByCol ms).filter (fun m => m.generatedLine == line)
      = sortByCol (ms.filter (fun m => m.generatedLine == line)) := by
  have hperm : ((sortByCol ms).filter (fun m => m.generatedLine == line)).Perm
      (sortByCol (ms.filter (fun m => m.generatedLine == line))) :=
    ((sortByCol_perm ms).filter _).trans (sortByCol_perm _).symm
  refine sorted_cols_eq_of_perm _ _ hperm ?_ ?_ (sortByCol_sorted _)
  · exact (List.Perm.pairwise_iff (fun h => Ne.symm h)
      ((sortByCol_perm ms).filter _)).mpr hdist
  · exact List.Pairwise.filter _ (sortByCol_sorted ms)

/-- Per-line sorted groups only depend on the multiset of entries, when the
line's columns are distinct. -/
theorem sortByCol_filter_line_perm (ms ms' : List Loc) (line : Nat)
    (hperm : ms.Perm ms')
    (hdist : (ms.filter (fun m => m.generatedLine == line)).Pairwise
      (fun a b => a.generatedColumn ≠ b.generatedColumn)) :
    sortByCol (ms.filter (fun m => m.generatedLine == line))
      = sortByCol (ms'.filter (fun m => m.generatedLine == line)) := by
  have hp : (sortByCol (ms.filter (fun m => m.generatedLine == line))).Perm
      (sortByCol (ms'.filter (fun m => m.generatedLine == line))) :=
    (sortByCol_perm _).trans ((hperm.filter _).trans (sortByCol_perm _).symm)
  refine sorted_cols_eq_of_perm _ _ hp ?_ (sortByCol_sorted _) (sortByCol_sorted _)
  exact (List.Perm.pairwise_iff (fun h => Ne.symm h) (sortByCol_perm _)).mpr hdist

/-- The reconstruction of a sorted entry list decomposes into ascending
lines with per-line column-sorted groups. -/
theorem getString_sortByCol_decomposition (decode : List Nat → List Nat)
    (bytes : List (List Nat)) (ms : List Loc)
    (hdist : ∀ line : Nat, (ms.filter (fun m => m.generatedLine == line)).Pairwise
      (fun a b => a.generatedColumn ≠ b.generatedColumn)) :
    getStringFromSerializeMappings decode bytes (sortByCol ms)
      = (linesOf ms).foldl
          (fun s line =>
            if validLine bytes line then
              s ++ lineString (decode (bytes.getD (line - 1) []))
                (sortByCol (ms.filter (fun m => m.generatedLine == line)))
            else s) [] := by
  unfold getStringFromSerializeMappings
  rw [linesOf_perm _ _ (sortByCol_perm ms)]
  apply List.foldl_ext
  intro s line _
  by_cases hv : validLine bytes line
  · rw [if_pos hv, if_pos hv, sortByCol_filter_line ms line (hdist line)]
  · rw [if_neg hv, if_neg hv]

/-- C6 counterexample: the reconstruction is NOT independent of the
appearance order in general.  Two entries of one module on one line sharing
`generatedColumn 0` (with `lastGeneratedColumn` 2 and 5) are delivered in
the two possible appearance orders — a permutation of the same entries —
and the pipeline produces different hints: the stable column sort keeps the
tied entries in appearance order, so entry order leaks into the output. -/
theorem C6_claim_counterexample :
    ([⟨some "m", 1, 0, some 2⟩, ⟨some "m", 1, 0, some 5⟩] : List Loc).Perm
        [⟨some "m", 1, 0, some 5⟩, ⟨some "m", 1, 0, some 2⟩]
    ∧ getSourceMappings (fun bs => bs) (cu "abcdefgh")
        [⟨some "m", 1, 0, some 2⟩, ⟨some "m", 1, 0, some 5⟩] (fun s => s)
      ≠ getSourceMappings (fun bs => bs) (cu "abcdefgh")
        [⟨some "m", 1, 0, some 5⟩, ⟨some "m", 1, 0, some 2⟩] (fun s => s) := by
  constructor
  · exact List.Perm.swap _ _ _
  · decide

/-- C6 (amended): each module's substrings are concatenated in
line-then-column order — ascending generated-line index first, and within
each generated line the group re-sorted (stably) by ascending
generatedColumn before reconstruction.  Provided the generatedColumns of
the module's entries on each generated line are pairwise distinct, the
result is independent of the order in which the entries appeared in the
source-map document; entries sharing a generatedColumn on one line keep
their appearance order under the stable sort, and the output may then
depend on that order.  Formally: each module's substrings are concatenated
order: the per-module pipeline (column sort followed by reconstruction)
walks the generated lines in ascending order with each line's group sorted
by generated column, and — as long as the columns on each line are pairwise
distinct — its output does not depend on the order in which the entries
appeared in the source map. -/
theorem C6_line_then_column_order (decode : List Nat → List Nat)
    (bytes : List (List Nat)) (ms ms' : List Loc) (hperm : ms.Perm ms')
    (hdist : ∀ line : Nat, (ms.filter (fun m => m.generatedLine == line)).Pairwise
      (fun a b => a.generatedColumn ≠ b.generatedColumn)) :
    getStringFromSerializeMappings decode bytes (sortByCol ms)
        = getStringFromSerializeMappings decode bytes (sortByCol ms')
    ∧ getStringFromSerializeMappings decode bytes (sortByCol ms)
        = (linesOf ms).foldl
            (fun s line =>
              if validLine bytes line then
                s ++ lineString (decode (bytes.getD (line - 1) []))
                  (sortByCol (ms.filter (fun m => m.generatedLine == line)))
              else s) []
    ∧ (linesOf ms).Sorted (· ≤ ·)
    ∧ (∀ line : Nat,
        (sortByCol (ms.filter (fun m => m.generatedLine == line))).Pairwise colLE) := by
  have hdist' : ∀ line : Nat,
      (ms'.filter (fun m => m.generatedLine == line)).Pairwise
        (fun a b => a.generatedColumn ≠ b.generatedColumn) := fun line =>
    (List.Perm.pairwise_iff (fun h => Ne.symm h) (hperm.filter _)).mp (hdist line)
  refine ⟨?_, getString_sortByCol_decomposition decode bytes ms hdist,
    linesOf_sorted ms, fun line => sortByCol_sorted _⟩
  rw [getString_sortByCol_decomposition decode bytes ms hdist,
    getString_sortByCol_decomposition decode bytes ms' hdist',
    linesOf_perm _ _ hperm]
  apply List.foldl_ext
  intro s line _
  by_cases hv : validLine bytes line
  · rw [if_pos hv, if_pos hv, sortByCol_filter_line_perm ms ms' line hperm (hdist line)]
  · rw [if_neg hv, if_neg hv]

/-- C6 witness: reversing the appearance order of two entries of one line
does not change the reconstruction. -/
theorem C6_line_then_column_order_witness :
    getStringFromSerializeMappings (fun bs => bs) [cu "abcd"]
        (sortByCol [⟨some "m", 1, 2, none⟩, ⟨some "m", 1, 0, some 1⟩])
      = getStringFromSerializeMappings (fun bs => bs) [cu "abcd"]
        (sortByCol [⟨some "m", 1, 0, some 1⟩, ⟨some "m", 1, 2, none⟩]) := by
  refine (C6_line_then_column_order (fun bs => bs) [cu "abcd"]
    [⟨some "m", 1, 2, none⟩, ⟨some "m", 1, 0, some 1⟩]
    [⟨some "m", 1, 0, some 1⟩, ⟨some "m", 1, 2, none⟩]
    (List.Perm.swap _ _ _) ?_).1
  intro line
  by_cases h : (1 : Nat) = line
  · subst h
    decide
  · have hb : ((1 : Nat) == line) = false := by simpa using h
    simp [List.filter_cons, hb]

/-- C10: `convertSourcemapToContents` returns exactly one record per source
whose embedded content is present and nonempty, with that source's id and
content, in the order of the source map's sources list; sources with
missing content are omitted without error. -/
theorem C10_convertSourcemapToContents_spec (sources : List String)
    (sourceContentFor : String → Option String) :
    convertSourcemapToContents sources sourceContentFor
      = (sources.filter (fun s => truthyS (sourceContentFor s))).map
          (fun s => ⟨s, (sourceContentFor s).getD ""⟩) := by
  unfold convertSourcemapToContents
  rw [convertSourcemapToContents_aux]
  simp

end VBA
